import Mathlib

/- Verification development for the expression-tree genetic-operator core of a
   symbolic-regression engine.  The embedded code is
   src/symb_regression/operators/mutation.py (mutate, create_random_tree) and
   the fitness metrics of src/src/symb_regression/utils/plotting.py
   (plot_prediction_analysis, lines 160-167).  The embedding is shallow: the
   ambient `random` source is threaded explicitly as a tape of draw results,
   in-place field updates become functional record updates, and a Python
   exception is the value `none`.  Draw distributions are abstracted: the tape
   chooses each result, subject to the same range constraints the library
   guarantees, so a universally quantified tape covers every possible sequence
   of random draws. -/

/-- One cell of the random tape: the `n` component feeds integer draws
    (`random.randint`, the index chosen by `random.choices`), the `q` component
    feeds continuous draws (`random.random`, `random.uniform`, `random.gauss`). -/
structure Draw where
  n : ℕ
  q : ℚ

def clamp01 (q : ℚ) : ℚ := max 0 (min q 1)

/-- `random.random()`: a value in the unit interval; consumes one tape cell. -/
def prand (tape : ℕ → Draw) (pos : ℕ) : ℚ × ℕ :=
  (clamp01 (tape pos).q, pos + 1)

/-- `random.randint(a, b)`: a value in the inclusive range `[a, b]`; raises
    (`none`) when `a > b`.  The tape chooses the offset into the range. -/
def prandint (a b : ℕ) (tape : ℕ → Draw) (pos : ℕ) : Option (ℕ × ℕ) :=
  if a ≤ b then some (a + (tape pos).n % (b - a + 1), pos + 1) else none

/-- `random.choices(candidates, weights)[0]`: one of the listed candidates;
    raises (`none`) on an empty candidate list.  Weight values only shape the
    distribution, which is abstracted: the tape chooses the element. -/
def pchoices {α : Type} (l : List α) (tape : ℕ → Draw) (pos : ℕ) : Option (α × ℕ) :=
  match l with
  | [] => none
  | x :: xs => some ((x :: xs).getD ((tape pos).n % (x :: xs).length) x, pos + 1)

/-- `random.uniform(a, b)`: `a + (b - a) * u` with `u` in the unit interval. -/
def puniform (a b : ℚ) (tape : ℕ → Draw) (pos : ℕ) : ℚ × ℕ :=
  (a + (b - a) * clamp01 (tape pos).q, pos + 1)

/-- `random.gauss(mu, sigma)` = `mu + sigma * z` with `z` an arbitrary draw. -/
def pgauss (mu sigma : ℚ) (tape : ℕ → Draw) (pos : ℕ) : ℚ × ℕ :=
  (mu + sigma * (tape pos).q, pos + 1)

/-- Modelled from the spec (section 3): core/tree.py is not under src/.  A node
    carries an operator-or-variable symbol tag `op`, an optional constant
    `value`, and optional `left`/`right` children; Python's `None` is `none`. -/
structure Node where
  op : Option String
  value : Option ℚ
  left : Option Node
  right : Option Node

/-- Modelled from the spec (section 4.2): operators/definitions.py is not under
    src/.  A fixed read-only catalog of unary operator symbols; mutation and
    generation use it only through symbol membership and its key list. -/
def UNARY_OPS : List String := ["sin", "cos", "exp", "log"]

/-- Modelled from the spec (section 4.2): the read-only catalog of binary
    operator symbols; `*` is the symbol the Simplify branch of mutate tests. -/
def BINARY_OPS : List String := ["+", "-", "*", "/"]

/-- Modelled from the spec: `get_var_name i` renders the tag of the i-th input
    variable (the repository displays variables as x0, x1, ...). -/
def get_var_name (i : ℕ) : String := "x" ++ toString i

/-- Python's `node.op in OPS` for an optional symbol (`None in OPS` is false). -/
def opIn (op : Option String) (l : List String) : Bool :=
  match op with
  | some s => l.contains s
  | none => false

/-- The variable leaf `Node(op=get_var_name(i))`. -/
def varLeaf (i : ℕ) : Node := ⟨some (get_var_name i), none, none, none⟩

/-- The constant leaf `Node(value=q)`. -/
def constLeaf (q : ℚ) : Node := ⟨none, some q, none, none⟩

/-- Modelled from the spec (section 6): config/settings.py is not under src/.
    The mutation-type tags of MUTATION_WEIGHTS (Subtree, Operator,
    ConstantPerturb, Simplify). -/
inductive MutationType where
  | SUBTREE
  | OPERATOR
  | CONSTANT
  | SIMPLIFY
deriving DecidableEq

/-- Modelled from the spec (section 6): the mutation configuration bundle;
    field values are supplied by callers, never fixed here. -/
structure MutationConfig where
  MUTATION_WEIGHTS : List (MutationType × ℚ)
  SUBTREE_DEPTH_RANGE : ℕ × ℕ
  VALUE_STEP_FACTOR : ℚ
  VARIABLE_PROBABILITY : ℚ

/-- Modelled from the spec (section 6): the tree-generation configuration. -/
structure TreeConfig where
  VARIABLE_PROBABILITY : ℚ
  OPERATOR_PROBABILITY : ℚ
  UNARY_OPERATOR_PROBABILITY : ℚ
  CONSTANT_RANGE : ℚ × ℚ
  ROOT_VARIABLE_SIDE_PROBABILITY : ℚ

/-- Modelled from the spec: representative default TreeConfig values standing
    in for `TreeConfig()` of the missing settings.py (mutate's Subtree branch
    calls create_random_tree without a config argument). -/
def defaultTreeConfig : TreeConfig := ⟨1/2, 1/2, 1/2, (-5, 5), 1/2⟩

/-- The weight-table defaulting at the top of create_random_tree (mutation.py
    lines 103-107): a missing table becomes the uniform table over the
    corresponding registry. -/
def resolveW (w : Option (List (String × ℚ))) (ops : List String) : List (String × ℚ) :=
  w.getD (ops.map (fun op => (op, 1 / (ops.length : ℚ))))

/-- create_random_tree (mutation.py lines 93-177) with an explicit fuel
    argument for structural termination.  The branch structure is decided by
    `depth`/`max_depth` exactly as in the source; fuel only bounds the
    recursion depth.  The wrapper `create_random_tree` below supplies
    `max_depth + 2` fuel, which the recursion (depth + 1 per call, only taken
    from depth = 0 or from depth < max_depth) can never exhaust, so the fuel-0
    arm is unreachable through the wrapper. -/
def createAux : ℕ → ℕ → ℕ → ℕ → Option (List (String × ℚ)) → Option (List (String × ℚ)) → TreeConfig → (ℕ → Draw) → ℕ → Option (Node × ℕ)
  | 0, _, _, _, _, _, _, _, _ => none
  | fuel + 1, depth, max_depth, n_variables, unary_weights, binary_weights, config, tape, pos =>
    let uw := resolveW unary_weights UNARY_OPS
    let bw := resolveW binary_weights BINARY_OPS
    if depth = 0 then
      -- root level: a binary operator with one side forced to a variable leaf
      match pchoices (bw.map Prod.fst) tape pos with
      | none => none
      | some (op, pos1) =>
        match prandint 0 n_variables tape pos1 with
        | none => none
        | some (var_idx, pos2) =>
          let (r, pos3) := prand tape pos2
          if r < config.ROOT_VARIABLE_SIDE_PROBABILITY then
            match createAux fuel (depth + 1) max_depth n_variables (some uw) (some bw) config tape pos3 with
            | none => none
            | some (sub, pos4) => some (⟨some op, none, some (varLeaf var_idx), some sub⟩, pos4)
          else
            match createAux fuel (depth + 1) max_depth n_variables (some uw) (some bw) config tape pos3 with
            | none => none
            | some (sub, pos4) => some (⟨some op, none, some sub, some (varLeaf var_idx)⟩, pos4)
    else if max_depth ≤ depth then
      -- at maximum depth: terminal only
      let (r, pos1) := prand tape pos
      if r < config.VARIABLE_PROBABILITY then
        match prandint 1 n_variables tape pos1 with
        | none => none
        | some (i, pos2) => some (varLeaf i, pos2)
      else
        let (c, pos2) := puniform (-5) 5 tape pos1
        some (constLeaf c, pos2)
    else
      -- intermediate depth
      let (r, pos1) := prand tape pos
      if r < config.OPERATOR_PROBABILITY then
        let (r2, pos2) := prand tape pos1
        if r2 < config.UNARY_OPERATOR_PROBABILITY then
          match pchoices (uw.map Prod.fst) tape pos2 with
          | none => none
          | some (op, pos3) =>
            match createAux fuel (depth + 1) max_depth n_variables (some uw) (some bw) config tape pos3 with
            | none => none
            | some (child, pos4) => some (⟨some op, none, some child, none⟩, pos4)
        else
          match pchoices (bw.map Prod.fst) tape pos2 with
          | none => none
          | some (op, pos3) =>
            match createAux fuel (depth + 1) max_depth n_variables (some uw) (some bw) config tape pos3 with
            | none => none
            | some (lc, pos4) =>
              match createAux fuel (depth + 1) max_depth n_variables (some uw) (some bw) config tape pos4 with
              | none => none
              | some (rc, pos5) => some (⟨some op, none, some lc, some rc⟩, pos5)
      else
        let (r2, pos2) := prand tape pos1
        if r2 < config.VARIABLE_PROBABILITY then
          match prandint 1 n_variables tape pos2 with
          | none => none
          | some (i, pos3) => some (varLeaf i, pos3)
        else
          let (c, pos3) := puniform config.CONSTANT_RANGE.1 config.CONSTANT_RANGE.2 tape pos2
          some (constLeaf c, pos3)

/-- `create_random_tree(depth, max_depth, n_variables, unary_weights,
    binary_weights, config)`: the wrapper fixing sufficient fuel. -/
def create_random_tree (depth max_depth n_variables : ℕ)
    (unary_weights binary_weights : Option (List (String × ℚ)))
    (config : TreeConfig) (tape : ℕ → Draw) (pos : ℕ) : Option (Node × ℕ) :=
  createAux (max_depth + 2) depth max_depth n_variables unary_weights binary_weights config tape pos

/-- Deep structural copy, `Node.copy` (core/tree.py, used by the Simplify
    branch; modelled from the spec, section 4.1: a fully independent tree,
    which for pure values is the identical tree). -/
def Node.copy : Node → Node
  | ⟨op, v, none, none⟩ => ⟨op, v, none, none⟩
  | ⟨op, v, some l, none⟩ => ⟨op, v, some l.copy, none⟩
  | ⟨op, v, none, some r⟩ => ⟨op, v, none, some r.copy⟩
  | ⟨op, v, some l, some r⟩ => ⟨op, v, some l.copy, some r.copy⟩

/-- Height of a tree in edges: a leaf has height 0; a node at depth d in a tree
    of height h puts its deepest descendant at depth d + h. -/
def Node.height : Node → ℕ
  | ⟨_, _, none, none⟩ => 0
  | ⟨_, _, some l, none⟩ => l.height + 1
  | ⟨_, _, none, some r⟩ => r.height + 1
  | ⟨_, _, some l, some r⟩ => max l.height r.height + 1

/-- The arity invariant of the spec (section 3): every node whose symbol is in
    the binary registry has both children, every node whose symbol is in the
    unary registry has exactly its left child. -/
def validArity : Node → Bool
  | ⟨op, _, none, none⟩ => !(opIn op BINARY_OPS) && !(opIn op UNARY_OPS)
  | ⟨op, _, some l, none⟩ => !(opIn op BINARY_OPS) && validArity l
  | ⟨op, _, none, some r⟩ => !(opIn op BINARY_OPS) && !(opIn op UNARY_OPS) && validArity r
  | ⟨op, _, some l, some r⟩ => !(opIn op UNARY_OPS) && validArity l && validArity r

/-- Every leaf of the tree that carries a variable tag carries one whose index
    lies in the inclusive range `[lo, hi]`. -/
def varIdxOk (lo hi : ℕ) : Node → Prop
  | ⟨op, _, none, none⟩ =>
      (∃ i, lo ≤ i ∧ i ≤ hi ∧ op = some (get_var_name i)) ∨
      (∀ i, op ≠ some (get_var_name i))
  | ⟨_, _, some l, none⟩ => varIdxOk lo hi l
  | ⟨_, _, none, some r⟩ => varIdxOk lo hi r
  | ⟨_, _, some l, some r⟩ => varIdxOk lo hi l ∧ varIdxOk lo hi r

/-- Some leaf of the tree carries exactly the symbol `s`. -/
def containsLeafOp (s : String) : Node → Bool
  | ⟨op, _, none, none⟩ => op = some s
  | ⟨_, _, some l, none⟩ => containsLeafOp s l
  | ⟨_, _, none, some r⟩ => containsLeafOp s r
  | ⟨_, _, some l, some r⟩ => containsLeafOp s l || containsLeafOp s r

/-- Python truthiness test `child and child.value == q` for an optional child. -/
def childValIs (c : Option Node) (q : ℚ) : Bool :=
  match c with
  | some cn => if cn.value = some q then true else false
  | none => false

/-- The mutation-type dispatch of mutate (mutation.py lines 21-68), including
    the literal duplicate guard of lines 50-57.  The outcome is either an early
    return (`Sum.inl`: the Subtree replacement of lines 28-36 or a Simplify
    folding result of lines 59-68, both returned without child recursion) or a
    fall-through to the child recursion (`Sum.inr`) carrying the possibly
    updated `op` and `value` fields (the only fields the in-place branches
    touch) together with the next tape position. -/
def mutateDispatch (node : Node) (mutation_prob : ℚ) (max_depth n_variables : ℕ)
    (unary_weights binary_weights : List (String × ℚ)) (config : MutationConfig)
    (tape : ℕ → Draw) (pos : ℕ) :
    Option ((Node × ℕ) ⊕ (Option String × Option ℚ × ℕ)) :=
  let (r, pos1) := prand tape pos
  if r < mutation_prob then
    match pchoices (config.MUTATION_WEIGHTS.map Prod.fst) tape pos1 with
    | none => none
    | some (mutation_type, pos2) =>
      if mutation_type = MutationType.SUBTREE then
        match prandint config.SUBTREE_DEPTH_RANGE.1 config.SUBTREE_DEPTH_RANGE.2 tape pos2 with
        | none => none
        | some (d, pos3) =>
          match create_random_tree d max_depth n_variables (some unary_weights) (some binary_weights) defaultTreeConfig tape pos3 with
          | none => none
          | some (t, pos4) => some (Sum.inl (t, pos4))
      else if mutation_type = MutationType.OPERATOR then
        -- lines 38-48: operator swap within the same-arity registry
        if opIn node.op UNARY_OPS then
          match pchoices (unary_weights.map Prod.fst) tape pos2 with
          | none => none
          | some (newOp, pos3) => some (Sum.inr (some newOp, node.value, pos3))
        else if opIn node.op BINARY_OPS then
          match pchoices (binary_weights.map Prod.fst) tape pos2 with
          | none => none
          | some (newOp, pos3) => some (Sum.inr (some newOp, node.value, pos3))
        else some (Sum.inr (node.op, node.value, pos2))
      else if mutation_type = MutationType.OPERATOR then
        -- lines 50-57: the constant-perturbation arm, guarded by the same tag
        -- as the arm above, exactly as in the source
        match node.value with
        | some v =>
          let step := if v ≠ 0 then |v| * config.VALUE_STEP_FACTOR else config.VALUE_STEP_FACTOR
          let (g, pos3) := pgauss 0 step tape pos2
          some (Sum.inr (node.op, some (v + g), pos3))
        | none => some (Sum.inr (node.op, node.value, pos2))
      else if mutation_type = MutationType.SIMPLIFY then
        -- lines 59-68: shallow algebraic folding on a multiplication node
        if node.op = some "*" then
          if childValIs node.left 0 ∨ childValIs node.right 0 then
            some (Sum.inl (constLeaf 0, pos2))
          else if childValIs node.left 1 then
            some (Sum.inl ((match node.right with | some rc => rc.copy | none => node), pos2))
          else if childValIs node.right 1 then
            some (Sum.inl ((match node.left with | some lc => lc.copy | none => node), pos2))
          else some (Sum.inr (node.op, node.value, pos2))
        else some (Sum.inr (node.op, node.value, pos2))
      else some (Sum.inr (node.op, node.value, pos2))
  else some (Sum.inr (node.op, node.value, pos1))

/-- The same dispatch with the arm of lines 50-57 removed and nothing else
    changed; compared against `mutateDispatch` to settle the dead-code claim. -/
def mutateDispatchNoPerturb (node : Node) (mutation_prob : ℚ) (max_depth n_variables : ℕ)
    (unary_weights binary_weights : List (String × ℚ)) (config : MutationConfig)
    (tape : ℕ → Draw) (pos : ℕ) :
    Option ((Node × ℕ) ⊕ (Option String × Option ℚ × ℕ)) :=
  let (r, pos1) := prand tape pos
  if r < mutation_prob then
    match pchoices (config.MUTATION_WEIGHTS.map Prod.fst) tape pos1 with
    | none => none
    | some (mutation_type, pos2) =>
      if mutation_type = MutationType.SUBTREE then
        match prandint config.SUBTREE_DEPTH_RANGE.1 config.SUBTREE_DEPTH_RANGE.2 tape pos2 with
        | none => none
        | some (d, pos3) =>
          match create_random_tree d max_depth n_variables (some unary_weights) (some binary_weights) defaultTreeConfig tape pos3 with
          | none => none
          | some (t, pos4) => some (Sum.inl (t, pos4))
      else if mutation_type = MutationType.OPERATOR then
        if opIn node.op UNARY_OPS then
          match pchoices (unary_weights.map Prod.fst) tape pos2 with
          | none => none
          | some (newOp, pos3) => some (Sum.inr (some newOp, node.value, pos3))
        else if opIn node.op BINARY_OPS then
          match pchoices (binary_weights.map Prod.fst) tape pos2 with
          | none => none
          | some (newOp, pos3) => some (Sum.inr (some newOp, node.value, pos3))
        else some (Sum.inr (node.op, node.value, pos2))
      else if mutation_type = MutationType.SIMPLIFY then
        if node.op = some "*" then
          if childValIs node.left 0 ∨ childValIs node.right 0 then
            some (Sum.inl (constLeaf 0, pos2))
          else if childValIs node.left 1 then
            some (Sum.inl ((match node.right with | some rc => rc.copy | none => node), pos2))
          else if childValIs node.right 1 then
            some (Sum.inl ((match node.left with | some lc => lc.copy | none => node), pos2))
          else some (Sum.inr (node.op, node.value, pos2))
        else some (Sum.inr (node.op, node.value, pos2))
      else some (Sum.inr (node.op, node.value, pos2))
  else some (Sum.inr (node.op, node.value, pos1))

/-- Number of nodes in a tree (at least 1). -/
def Node.size : Node → ℕ
  | ⟨_, _, none, none⟩ => 1
  | ⟨_, _, some l, none⟩ => l.size + 1
  | ⟨_, _, none, some r⟩ => r.size + 1
  | ⟨_, _, some l, some r⟩ => l.size + r.size + 1

/-- mutate (mutation.py lines 12-90) with an explicit fuel argument for
    structural termination: dispatch at this node, then — unless a branch
    returned early — recursion into the existing children with the mutation
    probability attenuated by `config.VARIABLE_PROBABILITY`, exactly as in
    lines 70-88.  Fuel only bounds the recursion depth; the wrapper `mutate`
    below supplies `node.size + 1` fuel, which the recursion (children are
    strictly smaller) never exhausts, so the fuel-0 arm is unreachable through
    the wrapper (mutateFuel_congr below makes the fuel irrelevance precise). -/
def mutateFuel : ℕ → Node → ℚ → ℕ → ℕ → List (String × ℚ) → List (String × ℚ) → MutationConfig → (ℕ → Draw) → ℕ → Option (Node × ℕ)
  | 0, _, _, _, _, _, _, _, _, _ => none
  | fuel + 1, ⟨op, v, l, r⟩, mutation_prob, max_depth, n_variables, uw, bw, config, tape, pos =>
    match mutateDispatch ⟨op, v, l, r⟩ mutation_prob max_depth n_variables uw bw config tape pos with
    | none => none
    | some (Sum.inl res) => some res
    | some (Sum.inr (op1, v1, pos1)) =>
      match l, r with
      | none, none => some (⟨op1, v1, none, none⟩, pos1)
      | none, some rc =>
        match mutateFuel fuel rc (mutation_prob * config.VARIABLE_PROBABILITY) max_depth n_variables uw bw config tape pos1 with
        | none => none
        | some (rc1, pos2) => some (⟨op1, v1, none, some rc1⟩, pos2)
      | some lc, none =>
        match mutateFuel fuel lc (mutation_prob * config.VARIABLE_PROBABILITY) max_depth n_variables uw bw config tape pos1 with
        | none => none
        | some (lc1, pos2) => some (⟨op1, v1, some lc1, none⟩, pos2)
      | some lc, some rc =>
        match mutateFuel fuel lc (mutation_prob * config.VARIABLE_PROBABILITY) max_depth n_variables uw bw config tape pos1 with
        | none => none
        | some (lc1, pos2) =>
          match mutateFuel fuel rc (mutation_prob * config.VARIABLE_PROBABILITY) max_depth n_variables uw bw config tape pos2 with
          | none => none
          | some (rc1, pos3) => some (⟨op1, v1, some lc1, some rc1⟩, pos3)

/-- `mutate(node, mutation_prob, max_depth, n_variables, unary_weights,
    binary_weights, config)`: the wrapper fixing sufficient fuel. -/
def mutate (node : Node) (mutation_prob : ℚ) (max_depth n_variables : ℕ)
    (uw bw : List (String × ℚ)) (config : MutationConfig)
    (tape : ℕ → Draw) (pos : ℕ) : Option (Node × ℕ) :=
  mutateFuel (node.size + 1) node mutation_prob max_depth n_variables uw bw config tape pos

/-- The child-recursion tail of mutate (lines 70-90) in isolation, applied to a
    node with fields `op`, `v`, `l`, `r`: used to state that a fall-through
    dispatch leaves the node to exactly this recursion. -/
def mutateChildren (op : Option String) (v : Option ℚ) (l r : Option Node)
    (mutation_prob : ℚ) (max_depth n_variables : ℕ)
    (uw bw : List (String × ℚ)) (config : MutationConfig)
    (tape : ℕ → Draw) (pos : ℕ) : Option (Node × ℕ) :=
  match l, r with
  | none, none => some (⟨op, v, none, none⟩, pos)
  | none, some rc =>
    match mutate rc (mutation_prob * config.VARIABLE_PROBABILITY) max_depth n_variables uw bw config tape pos with
    | none => none
    | some (rc1, pos2) => some (⟨op, v, none, some rc1⟩, pos2)
  | some lc, none =>
    match mutate lc (mutation_prob * config.VARIABLE_PROBABILITY) max_depth n_variables uw bw config tape pos with
    | none => none
    | some (lc1, pos2) => some (⟨op, v, some lc1, none⟩, pos2)
  | some lc, some rc =>
    match mutate lc (mutation_prob * config.VARIABLE_PROBABILITY) max_depth n_variables uw bw config tape pos with
    | none => none
    | some (lc1, pos2) =>
      match mutate rc (mutation_prob * config.VARIABLE_PROBABILITY) max_depth n_variables uw bw config tape pos2 with
      | none => none
      | some (rc1, pos3) => some (⟨op, v, some lc1, some rc1⟩, pos3)

/-- The value classes a numpy float64 expression can take here: an exact finite
    value, a signed infinity, or NaN. -/
inductive NpFloat where
  | finite : ℚ → NpFloat
  | posinf : NpFloat
  | neginf : NpFloat
  | nan : NpFloat
deriving DecidableEq

/-- numpy float64 semantics of the quotient `a / b` for exact finite operands:
    division by zero emits a warning, not an exception, and yields a signed
    infinity, or NaN for 0/0. -/
def npQuot (a b : ℚ) : NpFloat :=
  if b = 0 then
    (if a = 0 then NpFloat.nan else if 0 < a then NpFloat.posinf else NpFloat.neginf)
  else NpFloat.finite (a / b)

/-- numpy float64 semantics of `1 - t`: subtraction from a finite value maps an
    infinity to the opposite infinity and propagates NaN. -/
def npOneSub : NpFloat → NpFloat
  | NpFloat.finite q => NpFloat.finite (1 - q)
  | NpFloat.posinf => NpFloat.neginf
  | NpFloat.neginf => NpFloat.posinf
  | NpFloat.nan => NpFloat.nan

/-- Modelled from the spec (section 4.2): the unary evaluation functions are
    transcendental and external to this core; a definite computable stand-in
    keeps evaluation executable.  No verified claim depends on this table. -/
def unaryFn (s : String) (a : ℚ) : ℚ := a + s.length

/-- Modelled from the spec (sections 4.1-4.2): the binary evaluation table;
    division by zero is mapped to a defined sentinel per the spec's policy. -/
def binaryFn (s : String) (a b : ℚ) : ℚ :=
  if s = "+" then a + b
  else if s = "-" then a - b
  else if s = "*" then a * b
  else if b = 0 then 1 else a / b

/-- Modelled from the spec (section 4.1): `Node.evaluate` (core/tree.py is not
    under src/).  Vectorized evaluation over the rows of `x`: a constant
    broadcasts across rows, a variable leaf indexes its column (an unknown
    symbol or out-of-range index is an error), an operator node applies the
    registry function of its symbol; a malformed node is an error. -/
def Node.evaluate : Node → List (List ℚ) → Option (List ℚ)
  | ⟨none, some c, none, none⟩, x => some (List.replicate x.length c)
  | ⟨some s, none, none, none⟩, x =>
    match (List.range (x.headD []).length).find? (fun i => get_var_name i = s) with
    | some i => some (x.map (fun row => row.getD i 0))
    | none => none
  | ⟨some s, none, some l, none⟩, x =>
    if UNARY_OPS.contains s then
      match l.evaluate x with
      | some lv => some (lv.map (unaryFn s))
      | none => none
    else none
  | ⟨some s, none, some l, some r⟩, x =>
    if BINARY_OPS.contains s then
      match l.evaluate x, r.evaluate x with
      | some lv, some rv => some (List.zipWith (binaryFn s) lv rv)
      | _, _ => none
    else none
  | _, _ => none

/-- Modelled from the spec (section 4.5): the `evaluate_and_score` operation.
    Its metric computation is the one under src/ in plot_prediction_analysis
    (plotting.py lines 160-167): `y_pred = tree.evaluate(x)`, then
    `mse = mean((y - y_pred)^2)` and
    `r2 = 1 - sum((y - y_pred)^2) / sum((y - mean(y))^2)`, with numpy float
    semantics for the quotients; incompatible lengths are a numpy broadcast
    error. -/
def evaluate_and_score (tree : Node) (x : List (List ℚ)) (y : List ℚ) :
    Option (NpFloat × NpFloat) :=
  match tree.evaluate x with
  | none => none
  | some y_pred =>
    if y.length = y_pred.length then
      let ssRes := (List.zipWith (fun a b => (a - b) ^ 2) y y_pred).sum
      let ybar : ℚ := y.sum / (y.length : ℚ)
      let ssTot := (y.map (fun a => (a - ybar) ^ 2)).sum
      some (npQuot ssRes (y.length : ℚ), npOneSub (npQuot ssRes ssTot))
    else none

theorem Node.copy_eq : ∀ n : Node, n.copy = n
  | ⟨_, _, none, none⟩ => rfl
  | ⟨_, _, some l, none⟩ => by simp [Node.copy, copy_eq l]
  | ⟨_, _, none, some r⟩ => by simp [Node.copy, copy_eq r]
  | ⟨_, _, some l, some r⟩ => by simp [Node.copy, copy_eq l, copy_eq r]

theorem prandint_some {a b : ℕ} {tape : ℕ → Draw} {pos : ℕ} {r p : ℕ}
    (h : prandint a b tape pos = some (r, p)) : a ≤ r ∧ r ≤ b ∧ p = pos + 1 := by
  unfold prandint at h
  split at h
  · rename_i hab
    obtain ⟨h1, h2⟩ := Prod.mk.injEq .. ▸ (Option.some.injEq .. ▸ h)
    refine ⟨?_, ?_, h2.symm⟩
    · omega
    · have hm : (tape pos).n % (b - a + 1) < b - a + 1 := Nat.mod_lt _ (by omega)
      omega
  · exact absurd h (by simp)

theorem pchoices_some {α : Type} {l : List α} {tape : ℕ → Draw} {pos : ℕ} {a : α} {p : ℕ}
    (h : pchoices l tape pos = some (a, p)) : a ∈ l ∧ p = pos + 1 := by
  unfold pchoices at h
  match l with
  | [] => exact absurd h (by simp)
  | x :: xs =>
    simp only [Option.some.injEq, Prod.mk.injEq] at h
    obtain ⟨h1, h2⟩ := h
    constructor
    · rw [← h1]
      have hlt : (tape pos).n % (x :: xs).length < (x :: xs).length :=
        Nat.mod_lt _ (by simp)
      rw [List.getD_eq_getElem _ _ hlt]
      exact List.getElem_mem hlt
    · omega

theorem gv_ne_of_head {i : ℕ} {t : String} (h : t.data.head? ≠ some 'x') :
    get_var_name i ≠ t := by
  intro he
  apply h
  rw [← he]
  simp [get_var_name, String.data_append]

theorem gv_not_unary (i : ℕ) : UNARY_OPS.contains (get_var_name i) = false := by
  have h1 : get_var_name i ≠ "sin" := gv_ne_of_head (by decide)
  have h2 : get_var_name i ≠ "cos" := gv_ne_of_head (by decide)
  have h3 : get_var_name i ≠ "exp" := gv_ne_of_head (by decide)
  have h4 : get_var_name i ≠ "log" := gv_ne_of_head (by decide)
  simp [UNARY_OPS, h1, h2, h3, h4]

theorem gv_not_binary (i : ℕ) : BINARY_OPS.contains (get_var_name i) = false := by
  have h1 : get_var_name i ≠ "+" := gv_ne_of_head (by decide)
  have h2 : get_var_name i ≠ "-" := gv_ne_of_head (by decide)
  have h3 : get_var_name i ≠ "*" := gv_ne_of_head (by decide)
  have h4 : get_var_name i ≠ "/" := gv_ne_of_head (by decide)
  simp [BINARY_OPS, h1, h2, h3, h4]

/-- C1: In mutate, the constant-perturbation branch is dead code: its guard
    tests the same Operator mutation-type tag already consumed by the
    operator-swap branch, so for every input node, mutation probability,
    configuration, and sequence of random draws, the mutation-type dispatch is
    indistinguishable from the dispatch with the Gaussian-noise arm of lines
    50-57 deleted — the same outcome and the same tape consumption — hence the
    statement perturbing a constant node's value never executes. -/
theorem claim_C1_constant_perturbation_dead (node : Node) (mutation_prob : ℚ)
    (max_depth n_variables : ℕ) (uw bw : List (String × ℚ))
    (config : MutationConfig) (tape : ℕ → Draw) (pos : ℕ) :
    mutateDispatch node mutation_prob max_depth n_variables uw bw config tape pos =
      mutateDispatchNoPerturb node mutation_prob max_depth n_variables uw bw config tape pos := by
  unfold mutateDispatch mutateDispatchNoPerturb
  simp only [prand]
  by_cases h : clamp01 (tape pos).q < mutation_prob
  · simp only [h, if_true]
    cases hpc : pchoices (config.MUTATION_WEIGHTS.map Prod.fst) tape (pos + 1) with
    | none => rfl
    | some v =>
      obtain ⟨mt, pos2⟩ := v
      cases mt <;> rfl
  · simp only [h, if_false]

theorem varIdxOk_varLeaf {lo hi i : ℕ} (h1 : lo ≤ i) (h2 : i ≤ hi) :
    varIdxOk lo hi (varLeaf i) := by
  simp only [varLeaf, varIdxOk]
  exact Or.inl ⟨i, h1, h2, rfl⟩

theorem varIdxOk_constLeaf {lo hi : ℕ} (q : ℚ) : varIdxOk lo hi (constLeaf q) := by
  simp only [constLeaf, varIdxOk]
  exact Or.inr (fun i => by simp)

/-- Any successful run of create_random_tree started at depth 1 or deeper only
    draws variable indices from the inclusive range [1, n]. -/
theorem createAux_varIdxOk :
    ∀ (fuel depth max_depth n_variables : ℕ)
      (uwo bwo : Option (List (String × ℚ))) (config : TreeConfig)
      (tape : ℕ → Draw) (pos : ℕ) (t : Node) (p : ℕ),
      1 ≤ depth →
      createAux fuel depth max_depth n_variables uwo bwo config tape pos = some (t, p) →
      varIdxOk 1 n_variables t
  | 0, depth, max_depth, n, uwo, bwo, config, tape, pos, t, p, hd, h => by
    simp [createAux] at h
  | fuel + 1, depth, max_depth, n, uwo, bwo, config, tape, pos, t, p, hd, h => by
    rw [createAux] at h
    rw [if_neg (by omega : ¬ depth = 0)] at h
    by_cases hf : max_depth ≤ depth
    · rw [if_pos hf] at h
      simp only [prand] at h
      split at h
      · -- variable leaf at the floor
        split at h
        · exact absurd h (by simp)
        · rename_i i p2 hri
          simp only [Option.some.injEq, Prod.mk.injEq] at h
          obtain ⟨hri1, hri2, _⟩ := prandint_some hri
          rw [← h.1]
          exact varIdxOk_varLeaf hri1 hri2
      · -- constant leaf at the floor
        simp only [puniform, Option.some.injEq, Prod.mk.injEq] at h
        rw [← h.1]
        exact varIdxOk_constLeaf _
    · rw [if_neg hf] at h
      simp only [prand] at h
      split at h
      · -- operator node at intermediate depth
        split at h
        · -- unary operator
          split at h
          · exact absurd h (by simp)
          · rename_i op p3 hpc
            split at h
            · exact absurd h (by simp)
            · rename_i child p4 hc
              simp only [Option.some.injEq, Prod.mk.injEq] at h
              have ih := createAux_varIdxOk fuel (depth + 1) max_depth n
                (some (resolveW uwo UNARY_OPS)) (some (resolveW bwo BINARY_OPS))
                config tape p3 child p4 (by omega) hc
              rw [← h.1]
              simpa only [varIdxOk] using ih
        · -- binary operator
          split at h
          · exact absurd h (by simp)
          · rename_i op p3 hpc
            split at h
            · exact absurd h (by simp)
            · rename_i lc p4 hc1
              split at h
              · exact absurd h (by simp)
              · rename_i rc p5 hc2
                simp only [Option.some.injEq, Prod.mk.injEq] at h
                have ih1 := createAux_varIdxOk fuel (depth + 1) max_depth n
                  (some (resolveW uwo UNARY_OPS)) (some (resolveW bwo BINARY_OPS))
                  config tape p3 lc p4 (by omega) hc1
                have ih2 := createAux_varIdxOk fuel (depth + 1) max_depth n
                  (some (resolveW uwo UNARY_OPS)) (some (resolveW bwo BINARY_OPS))
                  config tape p4 rc p5 (by omega) hc2
                rw [← h.1]
                exact ⟨ih1, ih2⟩
      · -- terminal at intermediate depth
        split at h
        · split at h
          · exact absurd h (by simp)
          · rename_i i p3 hri
            simp only [Option.some.injEq, Prod.mk.injEq] at h
            obtain ⟨hri1, hri2, _⟩ := prandint_some hri
            rw [← h.1]
            exact varIdxOk_varLeaf hri1 hri2
        · simp only [puniform, Option.some.injEq, Prod.mk.injEq] at h
          rw [← h.1]
          exact varIdxOk_constLeaf _

theorem unary_not_binary : ∀ s ∈ UNARY_OPS, s ∉ BINARY_OPS := by decide

theorem binary_not_unary : ∀ s ∈ BINARY_OPS, s ∉ UNARY_OPS := by decide

theorem opIn_false {s : String} {l : List String} (h : s ∉ l) : opIn (some s) l = false := by
  simp only [opIn]
  simpa using h

theorem gv_not_mem_unary (i : ℕ) : get_var_name i ∉ UNARY_OPS := by
  have h := gv_not_unary i
  intro hm
  simp [hm] at h

theorem gv_not_mem_binary (i : ℕ) : get_var_name i ∉ BINARY_OPS := by
  have h := gv_not_binary i
  intro hm
  simp [hm] at h

theorem validArity_varLeaf (i : ℕ) : validArity (varLeaf i) = true := by
  simp [varLeaf, validArity, opIn_false (gv_not_mem_unary i), opIn_false (gv_not_mem_binary i)]

theorem validArity_constLeaf (q : ℚ) : validArity (constLeaf q) = true := by
  simp [constLeaf, validArity, opIn]

theorem height_varLeaf (i : ℕ) : (varLeaf i).height = 0 := rfl

theorem height_constLeaf (q : ℚ) : (constLeaf q).height = 0 := rfl

/-- Any successful run of create_random_tree started at depth 1 or deeper,
    with weight-table keys drawn from the matching registries, returns a tree
    satisfying the arity invariant whose height is bounded by the remaining
    depth budget max_depth - depth. -/
theorem createAux_valid :
    ∀ (fuel depth max_depth n_variables : ℕ)
      (uwo bwo : Option (List (String × ℚ))) (config : TreeConfig)
      (tape : ℕ → Draw) (pos : ℕ) (t : Node) (p : ℕ),
      (∀ s ∈ (resolveW uwo UNARY_OPS).map Prod.fst, s ∈ UNARY_OPS) →
      (∀ s ∈ (resolveW bwo BINARY_OPS).map Prod.fst, s ∈ BINARY_OPS) →
      1 ≤ depth →
      createAux fuel depth max_depth n_variables uwo bwo config tape pos = some (t, p) →
      validArity t = true ∧ t.height ≤ max_depth - depth
  | 0, depth, max_depth, n, uwo, bwo, config, tape, pos, t, p, hu, hb, hd, h => by
    simp [createAux] at h
  | fuel + 1, depth, max_depth, n, uwo, bwo, config, tape, pos, t, p, hu, hb, hd, h => by
    rw [createAux] at h
    rw [if_neg (by omega : ¬ depth = 0)] at h
    by_cases hf : max_depth ≤ depth
    · rw [if_pos hf] at h
      simp only [prand] at h
      split at h
      · split at h
        · exact absurd h (by simp)
        · rename_i i p2 hri
          simp only [Option.some.injEq, Prod.mk.injEq] at h
          rw [← h.1]
          exact ⟨validArity_varLeaf i, by simp [height_varLeaf]⟩
      · simp only [puniform, Option.some.injEq, Prod.mk.injEq] at h
        rw [← h.1]
        exact ⟨validArity_constLeaf _, by simp [height_constLeaf]⟩
    · rw [if_neg hf] at h
      simp only [prand] at h
      split at h
      · split at h
        · -- unary operator
          split at h
          · exact absurd h (by simp)
          · rename_i op p3 hpc
            split at h
            · exact absurd h (by simp)
            · rename_i child p4 hc
              simp only [Option.some.injEq, Prod.mk.injEq] at h
              obtain ⟨hopmem, _⟩ := pchoices_some hpc
              have hopu : op ∈ UNARY_OPS := hu op hopmem
              obtain ⟨ihv, ihh⟩ := createAux_valid fuel (depth + 1) max_depth n
                (some (resolveW uwo UNARY_OPS)) (some (resolveW bwo BINARY_OPS))
                config tape p3 child p4 (by simpa [resolveW] using hu)
                (by simpa [resolveW] using hb) (by omega) hc
              rw [← h.1]
              constructor
              · simp [validArity, opIn_false (unary_not_binary op hopu), ihv]
              · simp only [Node.height]
                omega
        · -- binary operator
          split at h
          · exact absurd h (by simp)
          · rename_i op p3 hpc
            split at h
            · exact absurd h (by simp)
            · rename_i lc p4 hc1
              split at h
              · exact absurd h (by simp)
              · rename_i rc p5 hc2
                simp only [Option.some.injEq, Prod.mk.injEq] at h
                obtain ⟨hopmem, _⟩ := pchoices_some hpc
                have hopb : op ∈ BINARY_OPS := hb op hopmem
                obtain ⟨ihv1, ihh1⟩ := createAux_valid fuel (depth + 1) max_depth n
                  (some (resolveW uwo UNARY_OPS)) (some (resolveW bwo BINARY_OPS))
                  config tape p3 lc p4 (by simpa [resolveW] using hu)
                  (by simpa [resolveW] using hb) (by omega) hc1
                obtain ⟨ihv2, ihh2⟩ := createAux_valid fuel (depth + 1) max_depth n
                  (some (resolveW uwo UNARY_OPS)) (some (resolveW bwo BINARY_OPS))
                  config tape p4 rc p5 (by simpa [resolveW] using hu)
                  (by simpa [resolveW] using hb) (by omega) hc2
                rw [← h.1]
                constructor
                · simp [validArity, opIn_false (binary_not_unary op hopb), ihv1, ihv2]
                · simp only [Node.height]
                  omega
      · split at h
        · split at h
          · exact absurd h (by simp)
          · rename_i i p3 hri
            simp only [Option.some.injEq, Prod.mk.injEq] at h
            rw [← h.1]
            exact ⟨validArity_varLeaf i, by simp [height_varLeaf]⟩
        · simp only [puniform, Option.some.injEq, Prod.mk.injEq] at h
          rw [← h.1]
          exact ⟨validArity_constLeaf _, by simp [height_constLeaf]⟩

/-- The shape of every successful root-level (depth 0) run: a binary-symbol
    node with one side a forced variable leaf with index at most n (drawn from
    randint(0, n)) and the other side the recursive generation at depth 1. -/
theorem createAux_root :
    ∀ (fuel max_depth n_variables : ℕ)
      (uwo bwo : Option (List (String × ℚ))) (config : TreeConfig)
      (tape : ℕ → Draw) (pos : ℕ) (t : Node) (p : ℕ),
      createAux (fuel + 1) 0 max_depth n_variables uwo bwo config tape pos = some (t, p) →
      ∃ op var_idx sub,
        op ∈ (resolveW bwo BINARY_OPS).map Prod.fst ∧
        var_idx ≤ n_variables ∧
        createAux fuel 1 max_depth n_variables (some (resolveW uwo UNARY_OPS))
          (some (resolveW bwo BINARY_OPS)) config tape (pos + 3) = some (sub, p) ∧
        (t = ⟨some op, none, some (varLeaf var_idx), some sub⟩ ∨
         t = ⟨some op, none, some sub, some (varLeaf var_idx)⟩) := by
  intro fuel max_depth n uwo bwo config tape pos t p h
  rw [createAux] at h
  rw [if_pos rfl] at h
  split at h
  · exact absurd h (by simp)
  · rename_i op pos1 hpc
    obtain ⟨hopmem, hpos1⟩ := pchoices_some hpc
    subst hpos1
    split at h
    · exact absurd h (by simp)
    · rename_i var_idx pos2 hri
      obtain ⟨_, hvi, hpos2⟩ := prandint_some hri
      subst hpos2
      simp only [prand] at h
      split at h
      · split at h
        · exact absurd h (by simp)
        · rename_i sub pos4 hc
          simp only [Option.some.injEq, Prod.mk.injEq] at h
          refine ⟨op, var_idx, sub, hopmem, hvi, ?_, ?_⟩
          · rw [show pos + 3 = pos + 1 + 1 + 1 by omega, hc, h.2]
          · exact Or.inl h.1.symm
      · split at h
        · exact absurd h (by simp)
        · rename_i sub pos4 hc
          simp only [Option.some.injEq, Prod.mk.injEq] at h
          refine ⟨op, var_idx, sub, hopmem, hvi, ?_, ?_⟩
          · rw [show pos + 3 = pos + 1 + 1 + 1 by omega, hc, h.2]
          · exact Or.inr h.1.symm

/-- C3 (amended): for every call of create_random_tree whose weight-table keys
    come from the matching registries, and which does not combine depth 0 with
    max_depth 0, the returned tree is structurally valid — every binary-symbol
    node has both children, every unary-symbol node has exactly its left
    child — and no node of the returned tree lies deeper than max_depth below
    its root.  (At depth 0 with max_depth 0 the forced binary root already
    places children at depth 1; see the counterexample.) -/
theorem claim_C3_generation_valid_depth_bounded
    (depth max_depth n_variables : ℕ)
    (uwo bwo : Option (List (String × ℚ))) (config : TreeConfig)
    (tape : ℕ → Draw) (pos : ℕ) (t : Node) (p : ℕ)
    (hu : ∀ s ∈ (resolveW uwo UNARY_OPS).map Prod.fst, s ∈ UNARY_OPS)
    (hb : ∀ s ∈ (resolveW bwo BINARY_OPS).map Prod.fst, s ∈ BINARY_OPS)
    (hnz : 1 ≤ depth ∨ 1 ≤ max_depth)
    (h : create_random_tree depth max_depth n_variables uwo bwo config tape pos = some (t, p)) :
    validArity t = true ∧ t.height ≤ max_depth := by
  unfold create_random_tree at h
  rcases Nat.eq_zero_or_pos depth with hd | hd
  · subst hd
    have hm : 1 ≤ max_depth := by omega
    obtain ⟨op, vi, sub, hopmem, hvi, hsub, hshape⟩ :=
      createAux_root _ _ _ _ _ _ _ _ _ _ h
    obtain ⟨hv, hh⟩ := createAux_valid _ 1 _ _ _ _ _ _ _ _ _
      (by simpa [resolveW] using hu) (by simpa [resolveW] using hb) (le_refl 1) hsub
    have hopb : op ∈ BINARY_OPS := hb op hopmem
    rcases hshape with rfl | rfl
    · constructor
      · simp [validArity, opIn_false (binary_not_unary op hopb), hv,
          opIn_false (gv_not_mem_unary vi), opIn_false (gv_not_mem_binary vi), varLeaf]
      · simp only [Node.height, height_varLeaf]
        omega
    · constructor
      · simp [validArity, opIn_false (binary_not_unary op hopb), hv,
          opIn_false (gv_not_mem_unary vi), opIn_false (gv_not_mem_binary vi), varLeaf]
      · simp only [Node.height, height_varLeaf]
        omega
  · obtain ⟨hv, hh⟩ := createAux_valid _ depth _ _ _ _ _ _ _ _ _ hu hb hd h
    exact ⟨hv, le_trans hh (Nat.sub_le _ _)⟩

/-- C3 counterexample: the claim as stated quantifies over every call, but the
    call create_random_tree(0, 0, 1, ...) (max_depth = 0) must still emit the
    forced binary root, whose children sit at depth 1 > max_depth: with the
    all-zero draw tape it returns a tree of height 1. -/
theorem claim_C3_counterexample :
    create_random_tree 0 0 1 (some [("sin", 1)]) (some [("+", 1)]) defaultTreeConfig
        (fun _ => ⟨0, 0⟩) 0 =
      some (⟨some "+", none, some (varLeaf 0), some (varLeaf 1)⟩, 5) ∧
    ¬ (Node.height ⟨some "+", none, some (varLeaf 0), some (varLeaf 1)⟩ ≤ 0) := by
  constructor
  · norm_num [create_random_tree, createAux, resolveW, pchoices, prandint, prand,
      puniform, clamp01, defaultTreeConfig]
  · simp [Node.height, varLeaf]

theorem claim_C3_witness :
    validArity ⟨some "sin", none, some (varLeaf 1), none⟩ = true ∧
    Node.height ⟨some "sin", none, some (varLeaf 1), none⟩ ≤ 2 :=
  claim_C3_generation_valid_depth_bounded 1 2 1 (some [("sin", 1)]) (some [("+", 1)])
    defaultTreeConfig (fun _ => ⟨0, 0⟩) 0 _ 5
    (by decide)
    (by decide)
    (Or.inl (le_refl 1))
    (by norm_num [create_random_tree, createAux, resolveW, pchoices, prandint, prand,
      puniform, clamp01, defaultTreeConfig])

/-- C4: every tree returned by a root-level call create_random_tree(0, ...)
    contains a variable-reference leaf: the root is a binary-symbol node with
    exactly one side forced to be a variable leaf (index drawn from
    randint(0, n_variables)) and the other side generated recursively. -/
theorem claim_C4_root_contains_variable
    (max_depth n_variables : ℕ)
    (uwo bwo : Option (List (String × ℚ))) (config : TreeConfig)
    (tape : ℕ → Draw) (pos : ℕ) (t : Node) (p : ℕ)
    (h : create_random_tree 0 max_depth n_variables uwo bwo config tape pos = some (t, p)) :
    ∃ i, i ≤ n_variables ∧ containsLeafOp (get_var_name i) t = true := by
  unfold create_random_tree at h
  obtain ⟨op, vi, sub, _, hvi, _, hshape⟩ := createAux_root _ _ _ _ _ _ _ _ _ _ h
  refine ⟨vi, hvi, ?_⟩
  rcases hshape with rfl | rfl
  · simp [containsLeafOp, varLeaf]
  · simp [containsLeafOp, varLeaf]

theorem claim_C4_witness :
    ∃ i, i ≤ 1 ∧
      containsLeafOp (get_var_name i) ⟨some "+", none, some (varLeaf 0), some (varLeaf 1)⟩ = true :=
  claim_C4_root_contains_variable 1 1 (some [("sin", 1)]) (some [("+", 1)])
    defaultTreeConfig (fun _ => ⟨0, 0⟩) 0 _ 5
    (by norm_num [create_random_tree, createAux, resolveW, pchoices, prandint, prand,
      puniform, clamp01, defaultTreeConfig])

/-- C8: variable indices are drawn from two different inclusive ranges in
    create_random_tree.  (1) Away from the root (any call at depth 1 or
    deeper, which covers floor and intermediate depths), every variable leaf of
    the result carries an index in the inclusive range [1, n_variables].
    (2) At the root, the forced variable leaf carries an index at most
    n_variables (drawn from randint(0, n_variables)) while the recursive side
    again only carries indices in [1, n_variables].  (3) The root range is
    inclusive on both ends: every index v with v ≤ n_variables, including 0 and
    n_variables itself, is attained by some draw sequence.  (4) The deeper
    range is inclusive on both ends: every v with 1 ≤ v ≤ n_variables is
    attained at the depth floor by some draw sequence. -/
theorem claim_C8_variable_index_ranges :
    (∀ (depth max_depth n_variables : ℕ) (uwo bwo : Option (List (String × ℚ)))
       (config : TreeConfig) (tape : ℕ → Draw) (pos : ℕ) (t : Node) (p : ℕ),
       1 ≤ depth →
       create_random_tree depth max_depth n_variables uwo bwo config tape pos = some (t, p) →
       varIdxOk 1 n_variables t) ∧
    (∀ (max_depth n_variables : ℕ) (uwo bwo : Option (List (String × ℚ)))
       (config : TreeConfig) (tape : ℕ → Draw) (pos : ℕ) (t : Node) (p : ℕ),
       create_random_tree 0 max_depth n_variables uwo bwo config tape pos = some (t, p) →
       ∃ op var_idx sub, var_idx ≤ n_variables ∧ varIdxOk 1 n_variables sub ∧
         (t = ⟨some op, none, some (varLeaf var_idx), some sub⟩ ∨
          t = ⟨some op, none, some sub, some (varLeaf var_idx)⟩)) ∧
    (∀ (n_variables v : ℕ), v ≤ n_variables →
       ∃ p, create_random_tree 0 1 n_variables (some [("sin", 1)]) (some [("+", 1)])
           defaultTreeConfig (fun k => ⟨if k = 1 then v else 0, 1⟩) 0 =
         some (⟨some "+", none, some (constLeaf 5), some (varLeaf v)⟩, p)) ∧
    (∀ (n_variables v : ℕ), 1 ≤ v → v ≤ n_variables →
       ∃ p, create_random_tree 1 1 n_variables (some [("sin", 1)]) (some [("+", 1)])
           defaultTreeConfig (fun _ => ⟨v - 1, 0⟩) 0 = some (varLeaf v, p)) := by
  refine ⟨?_, ?_, ?_, ?_⟩
  · intro depth max_depth n uwo bwo config tape pos t p hd h
    exact createAux_varIdxOk _ depth _ _ _ _ _ _ _ _ _ hd h
  · intro max_depth n uwo bwo config tape pos t p h
    unfold create_random_tree at h
    obtain ⟨op, vi, sub, _, hvi, hsub, hshape⟩ := createAux_root _ _ _ _ _ _ _ _ _ _ h
    exact ⟨op, vi, sub, hvi,
      createAux_varIdxOk _ 1 _ _ _ _ _ _ _ _ _ (le_refl 1) hsub, hshape⟩
  · intro n v hv
    refine ⟨5, ?_⟩
    have hmod : v % (n + 1) = v := Nat.mod_eq_of_lt (by omega)
    norm_num [create_random_tree, createAux, resolveW, pchoices, prandint, prand,
      puniform, clamp01, defaultTreeConfig, hmod]
  · intro n v hv1 hvn
    refine ⟨2, ?_⟩
    have hmod : (v - 1) % (n - 1 + 1) = v - 1 := Nat.mod_eq_of_lt (by omega)
    have hmod2 : (v - 1) % n = v - 1 := Nat.mod_eq_of_lt (by omega)
    have h1v : 1 + (v - 1) = v := by omega
    norm_num [create_random_tree, createAux, resolveW, pchoices, prandint, prand,
      puniform, clamp01, defaultTreeConfig, hmod, hmod2, h1v, (by omega : 1 ≤ n)]

theorem claim_C8_witness :
    varIdxOk 1 1 (varLeaf 1) ∧
    (∃ op var_idx sub, var_idx ≤ 1 ∧ varIdxOk 1 1 sub ∧
      ((⟨some "+", none, some (varLeaf 0), some (varLeaf 1)⟩ : Node) =
          ⟨some op, none, some (varLeaf var_idx), some sub⟩ ∨
       (⟨some "+", none, some (varLeaf 0), some (varLeaf 1)⟩ : Node) =
          ⟨some op, none, some sub, some (varLeaf var_idx)⟩)) ∧
    (∃ p, create_random_tree 0 1 1 (some [("sin", 1)]) (some [("+", 1)]) defaultTreeConfig
        (fun k => ⟨if k = 1 then 1 else 0, 1⟩) 0 =
      some (⟨some "+", none, some (constLeaf 5), some (varLeaf 1)⟩, p)) ∧
    (∃ p, create_random_tree 1 1 1 (some [("sin", 1)]) (some [("+", 1)]) defaultTreeConfig
        (fun _ => ⟨1 - 1, 0⟩) 0 = some (varLeaf 1, p)) := by
  obtain ⟨h1, h2, h3, h4⟩ := claim_C8_variable_index_ranges
  refine ⟨?_, ?_, h3 1 1 (le_refl 1), h4 1 1 (le_refl 1) (le_refl 1)⟩
  · exact h1 1 1 1 (some [("sin", 1)]) (some [("+", 1)]) defaultTreeConfig
      (fun _ => ⟨0, 0⟩) 0 (varLeaf 1) 2 (le_refl 1)
      (by norm_num [create_random_tree, createAux, resolveW, pchoices, prandint, prand,
        puniform, clamp01, defaultTreeConfig])
  · exact h2 1 1 (some [("sin", 1)]) (some [("+", 1)]) defaultTreeConfig
      (fun _ => ⟨0, 0⟩) 0 ⟨some "+", none, some (varLeaf 0), some (varLeaf 1)⟩ 5
      (by norm_num [create_random_tree, createAux, resolveW, pchoices, prandint, prand,
        puniform, clamp01, defaultTreeConfig])

theorem mutateFuel_succ (fuel : ℕ) (op : Option String) (v : Option ℚ)
    (l r : Option Node) (mp : ℚ) (md nv : ℕ) (uw bw : List (String × ℚ))
    (config : MutationConfig) (tape : ℕ → Draw) (pos : ℕ) :
    mutateFuel (fuel + 1) ⟨op, v, l, r⟩ mp md nv uw bw config tape pos =
      match mutateDispatch ⟨op, v, l, r⟩ mp md nv uw bw config tape pos with
      | none => none
      | some (Sum.inl res) => some res
      | some (Sum.inr (op1, v1, pos1)) =>
        match l, r with
        | none, none => some (⟨op1, v1, none, none⟩, pos1)
        | none, some rc =>
          match mutateFuel fuel rc (mp * config.VARIABLE_PROBABILITY) md nv uw bw config tape pos1 with
          | none => none
          | some (rc1, pos2) => some (⟨op1, v1, none, some rc1⟩, pos2)
        | some lc, none =>
          match mutateFuel fuel lc (mp * config.VARIABLE_PROBABILITY) md nv uw bw config tape pos1 with
          | none => none
          | some (lc1, pos2) => some (⟨op1, v1, some lc1, none⟩, pos2)
        | some lc, some rc =>
          match mutateFuel fuel lc (mp * config.VARIABLE_PROBABILITY) md nv uw bw config tape pos1 with
          | none => none
          | some (lc1, pos2) =>
            match mutateFuel fuel rc (mp * config.VARIABLE_PROBABILITY) md nv uw bw config tape pos2 with
            | none => none
            | some (rc1, pos3) => some (⟨op1, v1, some lc1, some rc1⟩, pos3) := rfl

theorem Node.size_pos : ∀ n : Node, 1 ≤ n.size
  | ⟨_, _, none, none⟩ => le_refl 1
  | ⟨_, _, some _, none⟩ => by simp [Node.size]
  | ⟨_, _, none, some _⟩ => by simp [Node.size]
  | ⟨_, _, some _, some _⟩ => by simp [Node.size]

/-- The fuel argument of mutateFuel is irrelevant once it covers the node
    count, so the wrapper's choice of fuel is as good as any other. -/
theorem mutateFuel_congr :
    ∀ (f1 f2 : ℕ) (node : Node) (mp : ℚ) (md nv : ℕ)
      (uw bw : List (String × ℚ)) (config : MutationConfig)
      (tape : ℕ → Draw) (pos : ℕ),
      node.size ≤ f1 → node.size ≤ f2 →
      mutateFuel f1 node mp md nv uw bw config tape pos =
        mutateFuel f2 node mp md nv uw bw config tape pos
  | 0, _, node, _, _, _, _, _, _, _, _, h1, _ => by
    have := node.size_pos
    omega
  | _ + 1, 0, node, _, _, _, _, _, _, _, _, _, h2 => by
    have := node.size_pos
    omega
  | f1 + 1, f2 + 1, ⟨op, v, l, r⟩, mp, md, nv, uw, bw, config, tape, pos, h1, h2 => by
    rw [mutateFuel_succ, mutateFuel_succ]
    cases hd : mutateDispatch ⟨op, v, l, r⟩ mp md nv uw bw config tape pos with
    | none => rfl
    | some s =>
      cases s with
      | inl res => rfl
      | inr tri =>
        obtain ⟨op1, v1, pos1⟩ := tri
        cases l with
        | none =>
          cases r with
          | none => rfl
          | some rc =>
            have hs1 : rc.size ≤ f1 := by simp only [Node.size] at h1; omega
            have hs2 : rc.size ≤ f2 := by simp only [Node.size] at h2; omega
            simp only [mutateFuel_congr f1 f2 rc (mp * config.VARIABLE_PROBABILITY)
              md nv uw bw config tape pos1 hs1 hs2]
        | some lc =>
          cases r with
          | none =>
            have hs1 : lc.size ≤ f1 := by simp only [Node.size] at h1; omega
            have hs2 : lc.size ≤ f2 := by simp only [Node.size] at h2; omega
            simp only [mutateFuel_congr f1 f2 lc (mp * config.VARIABLE_PROBABILITY)
              md nv uw bw config tape pos1 hs1 hs2]
          | some rc =>
            have hsl1 : lc.size ≤ f1 := by simp only [Node.size] at h1; omega
            have hsl2 : lc.size ≤ f2 := by simp only [Node.size] at h2; omega
            have hsr1 : rc.size ≤ f1 := by simp only [Node.size] at h1; omega
            have hsr2 : rc.size ≤ f2 := by simp only [Node.size] at h2; omega
            simp only [mutateFuel_congr f1 f2 lc (mp * config.VARIABLE_PROBABILITY)
              md nv uw bw config tape pos1 hsl1 hsl2]
            cases hlc : mutateFuel f2 lc (mp * config.VARIABLE_PROBABILITY)
                md nv uw bw config tape pos1 with
            | none => rfl
            | some w =>
              obtain ⟨lc1, pos2⟩ := w
              simp only [mutateFuel_congr f1 f2 rc (mp * config.VARIABLE_PROBABILITY)
                md nv uw bw config tape pos2 hsr1 hsr2]

/-- Step lemma: when the dispatch returns early (Subtree replacement or
    Simplify folding), mutate returns exactly that result. -/
theorem mutate_of_inl {op : Option String} {v : Option ℚ} {l r : Option Node}
    {mutation_prob : ℚ} {max_depth n_variables : ℕ}
    {uw bw : List (String × ℚ)} {config : MutationConfig}
    {tape : ℕ → Draw} {pos : ℕ} {res : Node × ℕ}
    (hd : mutateDispatch ⟨op, v, l, r⟩ mutation_prob max_depth n_variables uw bw config tape pos =
      some (Sum.inl res)) :
    mutate ⟨op, v, l, r⟩ mutation_prob max_depth n_variables uw bw config tape pos = some res := by
  cases l <;> cases r <;>
    (simp only [mutate, Node.size]; rw [mutateFuel_succ]; simp only [hd])

/-- Step lemma: when the dispatch falls through with fields op1/v1, mutate is
    exactly the child recursion of lines 70-90 on the original children. -/
theorem mutate_of_inr {op : Option String} {v : Option ℚ} {l r : Option Node}
    {mutation_prob : ℚ} {max_depth n_variables : ℕ}
    {uw bw : List (String × ℚ)} {config : MutationConfig}
    {tape : ℕ → Draw} {pos : ℕ} {op1 : Option String} {v1 : Option ℚ} {pos1 : ℕ}
    (hd : mutateDispatch ⟨op, v, l, r⟩ mutation_prob max_depth n_variables uw bw config tape pos =
      some (Sum.inr (op1, v1, pos1))) :
    mutate ⟨op, v, l, r⟩ mutation_prob max_depth n_variables uw bw config tape pos =
      mutateChildren op1 v1 l r mutation_prob max_depth n_variables uw bw config tape pos1 := by
  cases l with
  | none =>
    cases r with
    | none =>
      simp only [mutate, Node.size]
      rw [mutateFuel_succ]
      simp only [hd, mutateChildren]
    | some rc =>
      simp only [mutate, Node.size]
      rw [mutateFuel_succ]
      simp only [hd, mutateChildren, mutate]
  | some lc =>
    cases r with
    | none =>
      simp only [mutate, Node.size]
      rw [mutateFuel_succ]
      simp only [hd, mutateChildren, mutate]
    | some rc =>
      simp only [mutate, Node.size]
      rw [mutateFuel_succ]
      simp only [hd, mutateChildren, mutate]
      simp only [mutateFuel_congr (lc.size + rc.size + 1) (lc.size + 1) lc
        (mutation_prob * config.VARIABLE_PROBABILITY) max_depth n_variables uw bw config tape pos1
        (by omega) (by omega)]
      cases hlc : mutateFuel (lc.size + 1) lc (mutation_prob * config.VARIABLE_PROBABILITY)
          max_depth n_variables uw bw config tape pos1 with
      | none => rfl
      | some w =>
        obtain ⟨lc1, pos2⟩ := w
        simp only [mutateFuel_congr (lc.size + rc.size + 1) (rc.size + 1) rc
          (mutation_prob * config.VARIABLE_PROBABILITY) max_depth n_variables uw bw config tape pos2
          (by omega) (by omega)]

/-- C2: the code violates the remaining-depth-budget property.  Under
    max_depth = 1, mutate on the tree (+ x1) leaves the root alone and fires a
    Subtree mutation at the left child, which sits at depth 1: the branch
    regenerates that child with create_random_tree(randint(0, 0) = 0,
    max_depth = 1), a budget measured from the replacement's own root rather
    than the remaining budget max_depth - 1 = 0, so the replacement has height
    1 and the resulting whole tree has height 2: a node at depth 2 > max_depth. -/
theorem claim_C2_subtree_depth_budget_violated :
    mutate ⟨some "+", none, some ⟨some (get_var_name 1), none, none, none⟩, none⟩ 1 1 1
        [("sin", 1)] [("+", 1)] ⟨[(MutationType.SUBTREE, 1)], (0, 0), 1/10, 1⟩
        (fun k => ⟨if k = 5 then 1 else 0, if k = 0 then 1 else 0⟩) 0 =
      some (⟨some "+", none,
        some ⟨some "+", none, some (varLeaf 1), some (varLeaf 1)⟩, none⟩, 9) ∧
    ¬ (Node.height ⟨some "+", none,
        some ⟨some "+", none, some (varLeaf 1), some (varLeaf 1)⟩, none⟩ ≤ 1) := by
  have h2 : create_random_tree 0 1 1 (some [("sin", 1)]) (some [("+", 1)])
      defaultTreeConfig (fun k => ⟨if k = 5 then 1 else 0, if k = 0 then 1 else 0⟩) 4 =
      some (⟨some "+", none, some (varLeaf 1), some (varLeaf 1)⟩, 9) := by
    norm_num [create_random_tree, createAux, resolveW, pchoices, prandint, prand,
      puniform, clamp01, defaultTreeConfig]
  have h3 : mutateDispatch ⟨some (get_var_name 1), none, none, none⟩ 1 1 1
      [("sin", 1)] [("+", 1)] ⟨[(MutationType.SUBTREE, 1)], (0, 0), 1/10, 1⟩
      (fun k => ⟨if k = 5 then 1 else 0, if k = 0 then 1 else 0⟩) 1 =
      some (Sum.inl (⟨some "+", none, some (varLeaf 1), some (varLeaf 1)⟩, 9)) := by
    norm_num [mutateDispatch, prand, clamp01, pchoices, prandint, h2]
  have h1 : mutateDispatch ⟨some "+", none, some ⟨some (get_var_name 1), none, none, none⟩, none⟩
      1 1 1 [("sin", 1)] [("+", 1)] ⟨[(MutationType.SUBTREE, 1)], (0, 0), 1/10, 1⟩
      (fun k => ⟨if k = 5 then 1 else 0, if k = 0 then 1 else 0⟩) 0 =
      some (Sum.inr (some "+", none, 1)) := by
    norm_num [mutateDispatch, prand, clamp01]
  constructor
  · rw [mutate_of_inr h1]
    simp only [mutateChildren]
    rw [show (1 : ℚ) * MutationConfig.VARIABLE_PROBABILITY ⟨[(MutationType.SUBTREE, 1)], (0, 0), 1/10, 1⟩ = 1 by norm_num]
    rw [mutate_of_inl h3]
  · simp [Node.height, varLeaf]

/-- C7: when the Simplify mutation type is drawn for a multiplication node,
    (1) a left child carrying constant 0 folds the node to a constant-0 leaf
    regardless of the right subtree, and (2) a right child that is the
    constant-1 leaf makes mutate return a deep copy of the left subtree,
    provided the left subtree satisfies the data-model invariant that a node
    carrying a constant value is a proper constant leaf. -/
theorem claim_C7_simplify_mul_identities
    (v : Option ℚ) (l : Node) (rOpt : Option Node) (mp : ℚ) (md nv : ℕ)
    (uw bw : List (String × ℚ)) (config : MutationConfig)
    (tape : ℕ → Draw) (pos : ℕ)
    (hfire : clamp01 (tape pos).q < mp)
    (hsel : pchoices (config.MUTATION_WEIGHTS.map Prod.fst) tape (pos + 1) =
      some (MutationType.SIMPLIFY, pos + 2)) :
    (l.value = some 0 →
      mutate ⟨some "*", v, some l, rOpt⟩ mp md nv uw bw config tape pos =
        some (constLeaf 0, pos + 2)) ∧
    ((∀ q : ℚ, l.value = some q → l = constLeaf q) →
      mutate ⟨some "*", v, some l, some (constLeaf 1)⟩ mp md nv uw bw config tape pos =
        some (Node.copy l, pos + 2)) := by
  constructor
  · intro hv0
    have hd : mutateDispatch ⟨some "*", v, some l, rOpt⟩ mp md nv uw bw config tape pos =
        some (Sum.inl (constLeaf 0, pos + 2)) := by
      simp only [mutateDispatch, prand]
      rw [if_pos hfire, hsel]
      simp [childValIs, hv0]
    exact mutate_of_inl hd
  · intro lWF
    rcases hlv : l.value with _ | q
    · -- left child carries no constant value: the X * 1 arm fires
      have hd : mutateDispatch ⟨some "*", v, some l, some (constLeaf 1)⟩ mp md nv uw bw config tape pos =
          some (Sum.inl (Node.copy l, pos + 2)) := by
        simp only [mutateDispatch, prand]
        rw [if_pos hfire, hsel]
        simp [childValIs, constLeaf, hlv]
      exact mutate_of_inl hd
    · by_cases hq0 : q = 0
      · -- 0 * 1 folds to the constant-0 leaf, which is the copy of the left child
        subst hq0
        have hl : l = constLeaf 0 := lWF 0 hlv
        subst hl
        have hd : mutateDispatch ⟨some "*", v, some (constLeaf 0), some (constLeaf 1)⟩
            mp md nv uw bw config tape pos = some (Sum.inl (constLeaf 0, pos + 2)) := by
          simp only [mutateDispatch, prand]
          rw [if_pos hfire, hsel]
          simp [childValIs, constLeaf]
        rw [mutate_of_inl hd]
        simp [Node.copy, constLeaf]
      · by_cases hq1 : q = 1
        · -- 1 * 1 fires the left-is-1 arm and copies the right constant-1 leaf
          subst hq1
          have hl : l = constLeaf 1 := lWF 1 hlv
          subst hl
          have hd : mutateDispatch ⟨some "*", v, some (constLeaf 1), some (constLeaf 1)⟩
              mp md nv uw bw config tape pos = some (Sum.inl (Node.copy (constLeaf 1), pos + 2)) := by
            simp only [mutateDispatch, prand]
            rw [if_pos hfire, hsel]
            simp [childValIs, constLeaf, Node.copy]
          exact mutate_of_inl hd
        · -- generic left operand: the right-is-1 arm copies the left subtree
          have hd : mutateDispatch ⟨some "*", v, some l, some (constLeaf 1)⟩
              mp md nv uw bw config tape pos = some (Sum.inl (Node.copy l, pos + 2)) := by
            simp only [mutateDispatch, prand]
            rw [if_pos hfire, hsel]
            simp [childValIs, constLeaf, hlv, hq0, hq1]
          exact mutate_of_inl hd

theorem claim_C7_witness :
    mutate ⟨some "*", none, some (constLeaf 0), some (varLeaf 1)⟩ 1 1 1 [("sin", 1)] [("+", 1)]
        ⟨[(MutationType.SIMPLIFY, 1)], (0, 0), 1/10, 1⟩ (fun _ => ⟨0, 0⟩) 0 =
      some (constLeaf 0, 0 + 2) ∧
    mutate ⟨some "*", none, some (constLeaf 2), some (constLeaf 1)⟩ 1 1 1 [("sin", 1)] [("+", 1)]
        ⟨[(MutationType.SIMPLIFY, 1)], (0, 0), 1/10, 1⟩ (fun _ => ⟨0, 0⟩) 0 =
      some (Node.copy (constLeaf 2), 0 + 2) := by
  have hfire : clamp01 ((fun _ => (⟨0, 0⟩ : Draw)) 0).q < (1 : ℚ) := by norm_num [clamp01]
  have hsel : pchoices (((⟨[(MutationType.SIMPLIFY, 1)], (0, 0), 1/10, 1⟩ : MutationConfig).MUTATION_WEIGHTS).map Prod.fst)
      (fun _ => ⟨0, 0⟩) (0 + 1) = some (MutationType.SIMPLIFY, 0 + 2) := by
    simp [pchoices]
  obtain ⟨p1, _⟩ := claim_C7_simplify_mul_identities none (constLeaf 0) (some (varLeaf 1)) 1 1 1
    [("sin", 1)] [("+", 1)] ⟨[(MutationType.SIMPLIFY, 1)], (0, 0), 1/10, 1⟩
    (fun _ => ⟨0, 0⟩) 0 hfire hsel
  obtain ⟨_, p2⟩ := claim_C7_simplify_mul_identities none (constLeaf 2) (some (varLeaf 1)) 1 1 1
    [("sin", 1)] [("+", 1)] ⟨[(MutationType.SIMPLIFY, 1)], (0, 0), 1/10, 1⟩
    (fun _ => ⟨0, 0⟩) 0 hfire hsel
  refine ⟨p1 rfl, p2 ?_⟩
  intro q hq
  have h2 : (2 : ℚ) = q := by simpa [constLeaf] using hq
  rw [← h2]

/-- C9: for a node whose op symbol belongs to neither registry, the
    Operator-mutation branch is a no-op: the dispatch raises no error and falls
    through with op, value (and the untouched children) unchanged, leaving
    mutate to perform exactly the ordinary child recursion of lines 70-90. -/
theorem claim_C9_unknown_operator_noop
    (s : String) (v : Option ℚ) (l r : Option Node) (mp : ℚ) (md nv : ℕ)
    (uw bw : List (String × ℚ)) (config : MutationConfig)
    (tape : ℕ → Draw) (pos : ℕ)
    (hfire : clamp01 (tape pos).q < mp)
    (hsel : pchoices (config.MUTATION_WEIGHTS.map Prod.fst) tape (pos + 1) =
      some (MutationType.OPERATOR, pos + 2))
    (hsu : s ∉ UNARY_OPS) (hsb : s ∉ BINARY_OPS) :
    mutateDispatch ⟨some s, v, l, r⟩ mp md nv uw bw config tape pos =
      some (Sum.inr (some s, v, pos + 2)) ∧
    mutate ⟨some s, v, l, r⟩ mp md nv uw bw config tape pos =
      mutateChildren (some s) v l r mp md nv uw bw config tape (pos + 2) := by
  have hd : mutateDispatch ⟨some s, v, l, r⟩ mp md nv uw bw config tape pos =
      some (Sum.inr (some s, v, pos + 2)) := by
    simp only [mutateDispatch, prand]
    rw [if_pos hfire, hsel]
    simp [opIn_false hsu, opIn_false hsb]
  exact ⟨hd, mutate_of_inr hd⟩

theorem claim_C9_witness :
    mutateDispatch ⟨some "zzz", some 7, some (varLeaf 1), none⟩ 1 1 1 [("sin", 1)] [("+", 1)]
        ⟨[(MutationType.OPERATOR, 1)], (0, 0), 1/10, 1⟩ (fun _ => ⟨0, 0⟩) 0 =
      some (Sum.inr (some "zzz", some 7, 0 + 2)) ∧
    mutate ⟨some "zzz", some 7, some (varLeaf 1), none⟩ 1 1 1 [("sin", 1)] [("+", 1)]
        ⟨[(MutationType.OPERATOR, 1)], (0, 0), 1/10, 1⟩ (fun _ => ⟨0, 0⟩) 0 =
      mutateChildren (some "zzz") (some 7) (some (varLeaf 1)) none 1 1 1 [("sin", 1)] [("+", 1)]
        ⟨[(MutationType.OPERATOR, 1)], (0, 0), 1/10, 1⟩ (fun _ => ⟨0, 0⟩) (0 + 2) :=
  claim_C9_unknown_operator_noop "zzz" (some 7) (some (varLeaf 1)) none 1 1 1
    [("sin", 1)] [("+", 1)] ⟨[(MutationType.OPERATOR, 1)], (0, 0), 1/10, 1⟩
    (fun _ => ⟨0, 0⟩) 0 (by norm_num [clamp01]) (by simp [pchoices])
    (by decide) (by decide)

/-- C10: the mirrored Simplify patterns the spec does not state.  (1) A
    multiplication node whose right child carries constant 0 folds to a
    constant-0 leaf regardless of the left child.  (2) A multiplication node
    whose left child is the constant-1 leaf returns a deep copy of the right
    subtree (for a data-model-respecting right subtree).  (3)/(4) When the
    node matching a fold pattern lacks the surviving sibling entirely, the
    node itself is returned. -/
theorem claim_C10_simplify_mirrored
    (mp : ℚ) (md nv : ℕ) (uw bw : List (String × ℚ)) (config : MutationConfig)
    (tape : ℕ → Draw) (pos : ℕ)
    (hfire : clamp01 (tape pos).q < mp)
    (hsel : pchoices (config.MUTATION_WEIGHTS.map Prod.fst) tape (pos + 1) =
      some (MutationType.SIMPLIFY, pos + 2)) :
    (∀ (v : Option ℚ) (lOpt : Option Node) (rc : Node), rc.value = some 0 →
      mutate ⟨some "*", v, lOpt, some rc⟩ mp md nv uw bw config tape pos =
        some (constLeaf 0, pos + 2)) ∧
    (∀ (v : Option ℚ) (rr : Node), (∀ q : ℚ, rr.value = some q → rr = constLeaf q) →
      mutate ⟨some "*", v, some (constLeaf 1), some rr⟩ mp md nv uw bw config tape pos =
        some (Node.copy rr, pos + 2)) ∧
    (∀ v : Option ℚ,
      mutate ⟨some "*", v, some (constLeaf 1), none⟩ mp md nv uw bw config tape pos =
        some (⟨some "*", v, some (constLeaf 1), none⟩, pos + 2)) ∧
    (∀ v : Option ℚ,
      mutate ⟨some "*", v, none, some (constLeaf 1)⟩ mp md nv uw bw config tape pos =
        some (⟨some "*", v, none, some (constLeaf 1)⟩, pos + 2)) := by
  refine ⟨?_, ?_, ?_, ?_⟩
  · intro v lOpt rc hrc0
    have hd : mutateDispatch ⟨some "*", v, lOpt, some rc⟩ mp md nv uw bw config tape pos =
        some (Sum.inl (constLeaf 0, pos + 2)) := by
      simp only [mutateDispatch, prand]
      rw [if_pos hfire, hsel]
      simp [childValIs, hrc0]
    exact mutate_of_inl hd
  · intro v rr rWF
    by_cases hr0 : rr.value = some 0
    · have hr : rr = constLeaf 0 := rWF 0 hr0
      subst hr
      have hd : mutateDispatch ⟨some "*", v, some (constLeaf 1), some (constLeaf 0)⟩
          mp md nv uw bw config tape pos = some (Sum.inl (constLeaf 0, pos + 2)) := by
        simp only [mutateDispatch, prand]
        rw [if_pos hfire, hsel]
        simp [childValIs, constLeaf]
      rw [mutate_of_inl hd]
      simp [Node.copy, constLeaf]
    · have hd : mutateDispatch ⟨some "*", v, some (constLeaf 1), some rr⟩
          mp md nv uw bw config tape pos = some (Sum.inl (Node.copy rr, pos + 2)) := by
        simp only [mutateDispatch, prand]
        rw [if_pos hfire, hsel]
        simp [childValIs, constLeaf, hr0]
      exact mutate_of_inl hd
  · intro v
    have hd : mutateDispatch ⟨some "*", v, some (constLeaf 1), none⟩
        mp md nv uw bw config tape pos =
        some (Sum.inl (⟨some "*", v, some (constLeaf 1), none⟩, pos + 2)) := by
      simp only [mutateDispatch, prand]
      rw [if_pos hfire, hsel]
      simp [childValIs, constLeaf]
    exact mutate_of_inl hd
  · intro v
    have hd : mutateDispatch ⟨some "*", v, none, some (constLeaf 1)⟩
        mp md nv uw bw config tape pos =
        some (Sum.inl (⟨some "*", v, none, some (constLeaf 1)⟩, pos + 2)) := by
      simp only [mutateDispatch, prand]
      rw [if_pos hfire, hsel]
      simp [childValIs, constLeaf]
    exact mutate_of_inl hd

theorem claim_C10_witness :
    mutate ⟨some "*", none, some (varLeaf 1), some (constLeaf 0)⟩ 1 1 1 [("sin", 1)] [("+", 1)]
        ⟨[(MutationType.SIMPLIFY, 1)], (0, 0), 1/10, 1⟩ (fun _ => ⟨0, 0⟩) 0 =
      some (constLeaf 0, 0 + 2) ∧
    mutate ⟨some "*", none, some (constLeaf 1), some (varLeaf 2)⟩ 1 1 1 [("sin", 1)] [("+", 1)]
        ⟨[(MutationType.SIMPLIFY, 1)], (0, 0), 1/10, 1⟩ (fun _ => ⟨0, 0⟩) 0 =
      some (Node.copy (varLeaf 2), 0 + 2) ∧
    mutate ⟨some "*", none, some (constLeaf 1), none⟩ 1 1 1 [("sin", 1)] [("+", 1)]
        ⟨[(MutationType.SIMPLIFY, 1)], (0, 0), 1/10, 1⟩ (fun _ => ⟨0, 0⟩) 0 =
      some (⟨some "*", none, some (constLeaf 1), none⟩, 0 + 2) ∧
    mutate ⟨some "*", none, none, some (constLeaf 1)⟩ 1 1 1 [("sin", 1)] [("+", 1)]
        ⟨[(MutationType.SIMPLIFY, 1)], (0, 0), 1/10, 1⟩ (fun _ => ⟨0, 0⟩) 0 =
      some (⟨some "*", none, none, some (constLeaf 1)⟩, 0 + 2) := by
  obtain ⟨h1, h2, h3, h4⟩ := claim_C10_simplify_mirrored 1 1 1 [("sin", 1)] [("+", 1)]
    ⟨[(MutationType.SIMPLIFY, 1)], (0, 0), 1/10, 1⟩ (fun _ => ⟨0, 0⟩) 0
    (by norm_num [clamp01]) (by simp [pchoices])
  refine ⟨h1 none (some (varLeaf 1)) (constLeaf 0) rfl, ?_, h3 none, h4 none⟩
  exact h2 none (varLeaf 2) (fun q hq => by simp [varLeaf] at hq)

theorem zipSq_nonneg : ∀ a b : List ℚ, 0 ≤ (List.zipWith (fun x y => (x - y) ^ 2) a b).sum
  | [], _ => by simp
  | _ :: _, [] => by simp
  | x :: xs, y :: ys => by
    simp only [List.zipWith_cons_cons, List.sum_cons]
    have h1 := sq_nonneg (x - y)
    have h2 := zipSq_nonneg xs ys
    linarith

theorem zipSq_eq_zero_iff : ∀ a b : List ℚ, a.length = b.length →
    ((List.zipWith (fun x y => (x - y) ^ 2) a b).sum = 0 ↔ a = b)
  | [], [], _ => by simp
  | [], _ :: _, h => by simp at h
  | _ :: _, [], h => by simp at h
  | x :: xs, y :: ys, h => by
    simp only [List.zipWith_cons_cons, List.sum_cons]
    have h1 := sq_nonneg (x - y)
    have h2 := zipSq_nonneg xs ys
    have hlen : xs.length = ys.length := by simpa using h
    constructor
    · intro h0
      have hx2 : (x - y) ^ 2 = 0 := by linarith
      have hs : (List.zipWith (fun x y => (x - y) ^ 2) xs ys).sum = 0 := by linarith
      have hxy : x = y := by
        have hsub := sq_eq_zero_iff.mp hx2
        linarith
      rw [hxy, (zipSq_eq_zero_iff xs ys hlen).mp hs]
    · intro he
      have hx : x = y := by injection he
      have hxs : xs = ys := by injection he
      subst hx
      subst hxs
      simp [(zipSq_eq_zero_iff xs xs rfl).mpr rfl]

theorem mapSq_eq_zero_iff : ∀ (l : List ℚ) (c : ℚ),
    ((l.map (fun a => (a - c) ^ 2)).sum = 0 ↔ ∀ a ∈ l, a = c)
  | [], c => by simp
  | x :: xs, c => by
    simp only [List.map_cons, List.sum_cons, List.mem_cons]
    have h1 := sq_nonneg (x - c)
    have h2 : 0 ≤ ((xs.map (fun a => (a - c) ^ 2)).sum) := by
      apply List.sum_nonneg
      intro a ha
      obtain ⟨b, _, rfl⟩ := List.mem_map.mp ha
      exact sq_nonneg _
    constructor
    · intro h0
      have hx : x = c := by
        have hx2 : (x - c) ^ 2 = 0 := by linarith
        have hsub := sq_eq_zero_iff.mp hx2
        linarith
      have hs : ((xs.map (fun a => (a - c) ^ 2)).sum = 0) := by linarith
      have hrest := (mapSq_eq_zero_iff xs c).mp hs
      intro a ha
      rcases ha with rfl | ha
      · exact hx
      · exact hrest a ha
    · intro hall
      have hx : x = c := hall x (Or.inl rfl)
      have hrest : ((xs.map (fun a => (a - c) ^ 2)).sum = 0) :=
        (mapSq_eq_zero_iff xs c).mpr (fun a ha => hall a (Or.inr ha))
      rw [hx, hrest]
      simp

theorem mean_of_const (l : List ℚ) (c : ℚ) (hne : l ≠ [])
    (hall : ∀ a ∈ l, a = c) : l.sum / (l.length : ℚ) = c := by
  have hsum : l.sum = l.length • c := List.sum_eq_card_nsmul l c hall
  have hlen : (l.length : ℚ) ≠ 0 := by
    simp only [ne_eq, Nat.cast_eq_zero, List.length_eq_zero]
    exact hne
  rw [hsum, nsmul_eq_mul]
  field_simp

/-- C5 (amended): for every tree and constant target vector y (all entries
    equal), evaluate_and_score neither raises nor traps — it returns a pair —
    and the zero variance denominator makes r2 the sentinel -inf whenever the
    predictions differ from y; but when the tree reproduces the constant target
    exactly, the ratio is 0/0 and r2 is NaN, not a non-NaN sentinel. -/
theorem claim_C5_constant_target (tree : Node) (x : List (List ℚ)) (n : ℕ) (c : ℚ)
    (y_pred : List ℚ) (hn : 0 < n)
    (heval : tree.evaluate x = some y_pred)
    (hlen : y_pred.length = n) :
    ∃ m r2, evaluate_and_score tree x (List.replicate n c) = some (m, r2) ∧
      (y_pred = List.replicate n c → r2 = NpFloat.nan) ∧
      (y_pred ≠ List.replicate n c → r2 = NpFloat.neginf) := by
  have hne : List.replicate n c ≠ [] := by
    intro h
    have := congrArg List.length h
    simp at this
    omega
  have hybar : (List.replicate n c).sum / (((List.replicate n c).length : ℕ) : ℚ) = c :=
    mean_of_const _ c hne (fun a ha => List.eq_of_mem_replicate ha)
  have hssTot : ((List.replicate n c).map
      (fun a => (a - (List.replicate n c).sum / (((List.replicate n c).length : ℕ) : ℚ)) ^ 2)).sum = 0 := by
    rw [hybar]
    exact (mapSq_eq_zero_iff _ c).mpr (fun a ha => List.eq_of_mem_replicate ha)
  refine ⟨npQuot (List.zipWith (fun a b => (a - b) ^ 2) (List.replicate n c) y_pred).sum
      (((List.replicate n c).length : ℕ) : ℚ),
    npOneSub (npQuot (List.zipWith (fun a b => (a - b) ^ 2) (List.replicate n c) y_pred).sum
      (((List.replicate n c).map
        (fun a => (a - (List.replicate n c).sum / (((List.replicate n c).length : ℕ) : ℚ)) ^ 2)).sum)),
    ?_, ?_, ?_⟩
  · simp only [evaluate_and_score, heval]
    rw [if_pos (by simp [hlen])]
  · intro hpe
    rw [hssTot, (zipSq_eq_zero_iff _ _ (by simp [hlen])).mpr hpe.symm]
    simp [npQuot, npOneSub]
  · intro hpn
    have hge := zipSq_nonneg (List.replicate n c) y_pred
    have hneq : (List.zipWith (fun a b => (a - b) ^ 2) (List.replicate n c) y_pred).sum ≠ 0 := by
      intro h0
      exact hpn ((zipSq_eq_zero_iff _ _ (by simp [hlen])).mp h0).symm
    have hpos : 0 < (List.zipWith (fun a b => (a - b) ^ 2) (List.replicate n c) y_pred).sum :=
      lt_of_le_of_ne hge (Ne.symm hneq)
    rw [hssTot]
    simp [npQuot, npOneSub, hneq, hpos]

/-- C5 counterexample: the claim as stated promises a defined non-NaN sentinel
    for every tree on a constant target, but the constant tree 3 on the
    constant target [3, 3] fits exactly, the r2 ratio is 0/0, and r2 is NaN. -/
theorem claim_C5_counterexample :
    evaluate_and_score (constLeaf 3) [[0], [0]] [3, 3] =
      some (NpFloat.finite 0, NpFloat.nan) ∧
    NpFloat.nan ≠ NpFloat.neginf ∧ NpFloat.nan ≠ NpFloat.posinf := by
  refine ⟨?_, by simp, by simp⟩
  norm_num [evaluate_and_score, Node.evaluate, constLeaf, npQuot, npOneSub, List.replicate]

theorem claim_C5_witness :
    ∃ m r2, evaluate_and_score (constLeaf 3) [[0], [0]] (List.replicate 2 3) = some (m, r2) ∧
      (List.replicate 2 (3 : ℚ) = List.replicate 2 3 → r2 = NpFloat.nan) ∧
      (List.replicate 2 (3 : ℚ) ≠ List.replicate 2 3 → r2 = NpFloat.neginf) :=
  claim_C5_constant_target (constLeaf 3) [[0], [0]] 2 3 (List.replicate 2 3)
    (by omega)
    (by simp [Node.evaluate, constLeaf])
    (by simp)

/-- C6 (amended): evaluate_and_score computes the pair (mse, r2) by the stated
    formulas; on a perfect-fit tree (y_pred equal to y exactly, y nonempty) it
    returns mse = 0.0, and r2 = 1.0 whenever y is not constant; when y is
    constant the r2 ratio is 0/0 under the formula and r2 is NaN, not 1.0. -/
theorem claim_C6_metrics_perfect_fit (tree : Node) (x : List (List ℚ)) (y : List ℚ)
    (hy : y ≠ [])
    (heval : tree.evaluate x = some y) :
    ∃ r2, evaluate_and_score tree x y = some (NpFloat.finite 0, r2) ∧
      ((¬ ∀ a ∈ y, ∀ b ∈ y, a = b) → r2 = NpFloat.finite 1) ∧
      ((∀ a ∈ y, ∀ b ∈ y, a = b) → r2 = NpFloat.nan) := by
  have hss0 : (List.zipWith (fun a b => (a - b) ^ 2) y y).sum = 0 :=
    (zipSq_eq_zero_iff y y rfl).mpr rfl
  have hlenq : ((y.length : ℕ) : ℚ) ≠ 0 := by
    simp only [ne_eq, Nat.cast_eq_zero, List.length_eq_zero]
    exact hy
  refine ⟨npOneSub (npQuot (List.zipWith (fun a b => (a - b) ^ 2) y y).sum
      ((y.map (fun a => (a - y.sum / ((y.length : ℕ) : ℚ)) ^ 2)).sum)), ?_, ?_, ?_⟩
  · simp only [evaluate_and_score, heval]
    rw [if_pos trivial, hss0]
    simp [npQuot, hlenq]
  · intro hnc
    have hssTot : ((y.map (fun a => (a - y.sum / ((y.length : ℕ) : ℚ)) ^ 2)).sum) ≠ 0 := by
      intro h0
      apply hnc
      have hall := (mapSq_eq_zero_iff y _).mp h0
      intro a ha b hb
      rw [hall a ha, hall b hb]
    rw [hss0]
    simp [npQuot, npOneSub, hssTot]
  · intro hc
    have hallbar : ∀ a ∈ y, a = y.sum / ((y.length : ℕ) : ℚ) := by
      obtain ⟨v, hv⟩ : ∃ v, ∀ a ∈ y, a = v := by
        cases y with
        | nil => exact ⟨0, by simp⟩
        | cons h t => exact ⟨h, fun a ha => hc a ha h (List.mem_cons_self h t)⟩
      have hmean : y.sum / ((y.length : ℕ) : ℚ) = v := mean_of_const y v hy hv
      intro a ha
      rw [hv a ha, hmean]
    have hssTot : ((y.map (fun a => (a - y.sum / ((y.length : ℕ) : ℚ)) ^ 2)).sum) = 0 :=
      (mapSq_eq_zero_iff y _).mpr hallbar
    rw [hss0, hssTot]
    simp [npQuot, npOneSub]

/-- C6 counterexample: the claim as stated promises mse = 0.0 and r2 = 1.0 on
    every perfect-fit tree, but the constant tree 2 on the dataset x = [[5]],
    y = [2] predicts y exactly while r2 is NaN (the 0/0 ratio), not 1.0. -/
theorem claim_C6_counterexample :
    Node.evaluate (constLeaf 2) [[5]] = some [2] ∧
    evaluate_and_score (constLeaf 2) [[5]] [2] = some (NpFloat.finite 0, NpFloat.nan) ∧
    NpFloat.nan ≠ NpFloat.finite 1 := by
  refine ⟨by simp [Node.evaluate, constLeaf], ?_, by simp⟩
  norm_num [evaluate_and_score, Node.evaluate, constLeaf, npQuot, npOneSub, List.replicate]

theorem claim_C6_witness :
    ∃ r2, evaluate_and_score (varLeaf 0) [[1], [2]] [1, 2] = some (NpFloat.finite 0, r2) ∧
      ((¬ ∀ a ∈ ([1, 2] : List ℚ), ∀ b ∈ ([1, 2] : List ℚ), a = b) → r2 = NpFloat.finite 1) ∧
      ((∀ a ∈ ([1, 2] : List ℚ), ∀ b ∈ ([1, 2] : List ℚ), a = b) → r2 = NpFloat.nan) :=
  claim_C6_metrics_perfect_fit (varLeaf 0) [[1], [2]] [1, 2] (by simp)
    (by norm_num [Node.evaluate, varLeaf, get_var_name, List.range_succ, List.find?])
